import Mathlib

/-!
Shallow embedding of the zodest CLI argument-parsing core (src/index.ts).

Conventions of the embedding:
- JavaScript strings are Lean `String`s; most functions operate on the
  underlying `List Char` (the `.data` field) so that splitting and prefix
  tests are plain structural recursion.
- Thrown exceptions are modelled with `Except PError`.
- The external zod schema engine is out of scope (an opaque capability);
  a schema's shape is represented by its list of field names, and a field
  validator by a function `Option String → Except PError String`
  (`none` models a missing positional token, i.e. `undefined` in JS).
- JS `Map` objects are association lists with `mapSet` reproducing
  `Map.set` (update in place, else append).
-/

/-- The value carried by one parsed flag: `true`/`false` or a string payload. -/
inductive FlagValue : Type
  | bool (b : Bool)
  | str (s : String)
deriving DecidableEq, Repr

/-- One parsed flag record, the `ParsedFlag` of types.ts. -/
structure ParsedFlag : Type where
  key : String
  value : FlagValue
deriving DecidableEq, Repr

/-- A zod issue as far as this core produces them (unrecognized-keys shape). -/
structure ZIssue : Type where
  message : String
  keys : List String
  path : List String
deriving DecidableEq, Repr

/-- Errors thrown by the core: the malformed-flag `Error`, a `ZodError`
carrying issues, or a field-schema failure from the external validator. -/
inductive PError : Type
  | malformedFlag
  | zodIssues (issues : List ZIssue)
  | fieldFailure (msg : String)
deriving DecidableEq, Repr

deriving instance DecidableEq for Except

/-- External field validator: receives the raw token (or `none` when the
position has no token, JS `undefined`) and yields a typed value or fails. -/
abbrev FieldSchema : Type := Option String → Except PError String

/-- The four shapes of a command's `args` schema: absent, a single schema,
a zod tuple / plain array of schemas, or a zod array of one item schema. -/
inductive ArgsSpec : Type
  | noSpec
  | single (s : FieldSchema)
  | tuple (ss : List FieldSchema)
  | arr (s : FieldSchema)

/-- An options definition: the schema's field names (keys of `.shape`) in
declaration order, plus the alias map as an association list. -/
structure OptionsDef : Type where
  fields : List String
  aliases : List (String × String)

/-- A command definition (the runtime-relevant fields). -/
structure Command : Type where
  name : String
  aliases : List String
  options : Option OptionsDef
  args : ArgsSpec

/-- The configuration fields consulted by the parsing core. -/
structure Config : Type where
  globalOptions : Option OptionsDef
  defaultCommand : Option String
  allowUnknownFlags : Bool

/-- Result of command resolution; `command` is `none` when the default
command key is missing from the table (JS would carry `undefined`). -/
structure FoundCommandResult : Type where
  command : Option Command
  pathLength : Nat

/-- Accumulated flags: insertion-ordered key/value pairs mirroring a JS Map. -/
abbrev FlagMap : Type := List (String × FlagValue)

/-- JS `Map.set`: overwrite the value in place if the key exists, else append. -/
def mapSet (m : FlagMap) (k : String) (v : FlagValue) : FlagMap :=
  if m.any (fun p => p.1 == k) then
    m.map (fun p => if p.1 == k then (k, v) else p)
  else
    m ++ [(k, v)]

/-- Is this character a camelCase separator (the regex class in camelCase)? -/
def isSepChar (c : Char) : Bool := c == ' ' || c == '-'

/-- Splitting on maximal runs of separators, as the JS regex split does:
the flag tracks whether we are inside a separator run. -/
def splitSepAux : Bool → List Char → List Char → List (List Char)
  | _, acc, [] => [acc.reverse]
  | inSep, acc, c :: rest =>
    if isSepChar c then
      if inSep then splitSepAux true acc rest
      else acc.reverse :: splitSepAux true [] rest
    else splitSepAux false (c :: acc) rest

/-- An empty segment contributes the JS rendering of `undefined`, because
the source interpolates the optional-chained first character directly. -/
def camelSeg : List Char → List Char
  | [] => ['u', 'n', 'd', 'e', 'f', 'i', 'n', 'e', 'd']
  | c :: rest => c.toUpper :: rest

/-- Core of `camelCase` on character lists: first segment verbatim, each
later segment with its first character upper-cased. -/
def camelCaseCore (cs : List Char) : List Char :=
  match splitSepAux false [] cs with
  | [] => []
  | first :: rest => first ++ (rest.map camelSeg).flatten

/-- The source's `camelCase` helper. -/
def camelCase (s : String) : String := String.mk (camelCaseCore s.data)

/-- JS `s.split(sep, 2)` digested into (first segment, optional second
segment): the second segment is the text between the first and second
separator, and is absent when no separator occurs at all. -/
def jsSplit2 (sep : Char) (cs : List Char) : List Char × Option (List Char) :=
  match cs.dropWhile (fun c => !(c == sep)) with
  | [] => (cs.takeWhile (fun c => !(c == sep)), none)
  | _ :: after => (cs.takeWhile (fun c => !(c == sep)), some (after.takeWhile (fun c => !(c == sep))))

/-- Does the long-flag remainder start with the negation marker? -/
def isNegated : List Char → Bool
  | 'n' :: 'o' :: '-' :: _ => true
  | _ => false

/-- Shared-value selection: boolean true when no `=` appeared. -/
def valueOf : Option (List Char) → FlagValue
  | none => FlagValue.bool true
  | some v => FlagValue.str (String.mk v)

/-- The long-flag branch of `parseArgIntoFlags` (remainder after `--`). -/
def parseLong (flag : List Char) : Except PError (List ParsedFlag) :=
  if isNegated flag then
    Except.ok [⟨String.mk (flag.drop 3), FlagValue.bool false⟩]
  else
    match jsSplit2 '=' flag with
    | ([], _) => Except.error PError.malformedFlag
    | (c :: ks, v?) => Except.ok [⟨String.mk (c :: ks), valueOf v?⟩]

/-- The short-flag branch of `parseArgIntoFlags` (remainder after `-`):
one flag per character of the cluster, all sharing the same value. -/
def parseShort (flag : List Char) : Except PError (List ParsedFlag) :=
  match jsSplit2 '=' flag with
  | (chars, v?) => Except.ok (chars.map (fun c => ⟨String.mk [c], valueOf v?⟩))

/-- Dispatch of `parseArgIntoFlags` on the leading dashes. -/
def parseFlagsCore : List Char → Except PError (List ParsedFlag)
  | '-' :: '-' :: flag => parseLong flag
  | '-' :: flag => parseShort flag
  | _ => Except.ok []

/-- The source's `parseArgIntoFlags`, with `throw` as `Except.error`. -/
def parseArgIntoFlags (arg : String) : Except PError (List ParsedFlag) :=
  parseFlagsCore arg.data

/-- The alias map of a config's global options, defaulting to empty. -/
def globalAliasesOf (cfg : Config) : List (String × String) :=
  match cfg.globalOptions with
  | none => []
  | some o => o.aliases

/-- The field set of a config's global schema shape, defaulting to empty. -/
def globalFieldsOf (cfg : Config) : List String :=
  match cfg.globalOptions with
  | none => []
  | some o => o.fields

/-- The alias map of a command's options, defaulting to empty. -/
def cmdAliasesOf (cmd : Command) : List (String × String) :=
  match cmd.options with
  | none => []
  | some o => o.aliases

/-- The field set of a command's option schema shape, defaulting to empty. -/
def cmdFieldsOf (cmd : Command) : List String :=
  match cmd.options with
  | none => []
  | some o => o.fields

/-- The source's `resolveAlias`: the alias map entry when present and truthy
(the empty string is falsy in JS and falls through), else camelCase. -/
def resolveAlias (key : String) (aliases : List (String × String)) : String :=
  match (aliases.find? (fun p => p.1 == key)).map Prod.snd with
  | some v => if v == "" then camelCase key else v
  | none => camelCase key

/-- The source's `isGlobalFlag`: key in the global schema shape or in the
global alias map's key set. -/
def isGlobalFlag (key : String) (globalOptions : Option OptionsDef) : Bool :=
  match globalOptions with
  | none => false
  | some o => o.fields.contains key || o.aliases.any (fun p => p.1 == key)

/-- Does the token start with a dash (JS startsWith of a single dash)? -/
def startsWithDash (arg : String) : Bool :=
  match arg.data with
  | '-' :: _ => true
  | _ => false

/-- Is this parsed flag all-global after alias resolution, as tested in the
boundary scan? -/
def flagIsGlobal (cfg : Config) (f : ParsedFlag) : Bool :=
  isGlobalFlag (resolveAlias f.key (globalAliasesOf cfg)) cfg.globalOptions

/-- Loop of `findGlobalOptionsEnd`: `total` is `argv.length`; a non-flag
token returns its own index `i`; a flag token whose parsed flags are not
all global executes the source's break statement, after which the function
falls through to returning `argv.length`. -/
def fgoeGo (cfg : Config) (total : Nat) : List String → Nat → Except PError Nat
  | [], _ => Except.ok total
  | arg :: rest, i =>
    if startsWithDash arg then
      match parseArgIntoFlags arg with
      | Except.error e => Except.error e
      | Except.ok flags =>
        if flags.all (flagIsGlobal cfg) then fgoeGo cfg total rest (i + 1)
        else Except.ok total
    else Except.ok i

/-- The source's `findGlobalOptionsEnd`. -/
def findGlobalOptionsEnd (argv : List String) (cfg : Config) : Except PError Nat :=
  fgoeGo cfg argv.length argv 0

/-- Inner loop of global accumulation: insert each parsed flag under its
resolved key, but only when it is recognized as global. -/
def insertGlobal (cfg : Config) (m : FlagMap) (fs : List ParsedFlag) : FlagMap :=
  fs.foldl
    (fun acc f =>
      if isGlobalFlag (resolveAlias f.key (globalAliasesOf cfg)) cfg.globalOptions then
        mapSet acc (resolveAlias f.key (globalAliasesOf cfg)) f.value
      else acc)
    m

/-- Outer loop of global accumulation over the global-options slice. -/
def accumGo (cfg : Config) : FlagMap → List String → Except PError FlagMap
  | m, [] => Except.ok m
  | m, arg :: rest =>
    match parseArgIntoFlags arg with
    | Except.error e => Except.error e
    | Except.ok fs => accumGo cfg (insertGlobal cfg m fs) rest

/-- The flag-accumulation phase of `processGlobalOptions`. -/
def accumGlobalFlags (part : List String) (cfg : Config) : Except PError FlagMap :=
  accumGo cfg [] part

/-- The keys of the flag map that are fields of the schema neither directly
nor after camelCase normalization (the filter inside `validateFlags`). -/
def unknownKeysOf (flags : FlagMap) (fields : List String) : List String :=
  (flags.map Prod.fst).filter
    (fun k => !(fields.contains k) && !(fields.contains (camelCase k)))

/-- The single aggregated unrecognized-keys issue built by `validateFlags`. -/
def mkUnknownIssue (context : String) (keys : List String) : ZIssue :=
  { message := "Unknown " ++ context ++ " flags: " ++ String.intercalate ", " keys
    keys := keys
    path := [context] }

/-- The source's `validateFlags`: no issues when unknown flags are allowed;
otherwise one aggregated issue listing every unknown key, or none. -/
def validateFlags (flags : FlagMap) (fields : List String) (context : String)
    (allowUnknownFlags : Bool) : List ZIssue :=
  if allowUnknownFlags then []
  else
    match unknownKeysOf flags fields with
    | [] => []
    | u :: us => [mkUnknownIssue context (u :: us)]

/-- JS truthiness of the configured default command: absent and the empty
string are both falsy. -/
def hasTruthyDefault (cfg : Config) : Bool :=
  match cfg.defaultCommand with
  | none => false
  | some s => !(s == "")

/-- The source's `processGlobalOptions` up to (and excluding) the final
opaque `schema.parse` call: accumulate the global flags, and run the
unknown-flag validation only when no (truthy) default command is set.
The accumulated map — the exact object handed to the external parse —
is returned. -/
def processGlobalOptions (part : List String) (cfg : Config) : Except PError FlagMap :=
  match accumGlobalFlags part cfg with
  | Except.error e => Except.error e
  | Except.ok m =>
    if hasTruthyDefault cfg then Except.ok m
    else
      match validateFlags m (globalFieldsOf cfg) "global" cfg.allowUnknownFlags with
      | [] => Except.ok m
      | u :: us => Except.error (PError.zodIssues (u :: us))

/-- Tuple-style argument validation: schema number `i` receives token
number `i`, or `none` when the token list is too short; the first failure
propagates, tokens beyond the schemas are never touched. -/
def tupleGo : Nat → List FieldSchema → List String → Except PError (List String)
  | _, [], _ => Except.ok []
  | i, x :: xs, ts =>
    match x ts[i]? with
    | Except.error e => Except.error e
    | Except.ok v =>
      match tupleGo (i + 1) xs ts with
      | Except.error e => Except.error e
      | Except.ok rest => Except.ok (v :: rest)

/-- The source's `validateArgs`, dispatching on the args-schema variant. -/
def validateArgs : ArgsSpec → List String → Except PError (List String)
  | ArgsSpec.noSpec, _ => Except.ok []
  | ArgsSpec.single x, ts =>
    match x ts[0]? with
    | Except.error e => Except.error e
    | Except.ok v => Except.ok [v]
  | ArgsSpec.tuple xs, ts => tupleGo 0 xs ts
  | ArgsSpec.arr x, ts => ts.mapM (fun t => x (some t))

/-- Inner loop of command-flag accumulation: every parsed flag is inserted
under its resolved key, with no global-style filtering. -/
def insertCmd (cmd : Command) (m : FlagMap) (fs : List ParsedFlag) : FlagMap :=
  fs.foldl (fun acc f => mapSet acc (resolveAlias f.key (cmdAliasesOf cmd)) f.value) m

/-- Outer loop of command-flag accumulation over the command-options slice. -/
def accumCmdGo (cmd : Command) : FlagMap → List String → Except PError FlagMap
  | m, [] => Except.ok m
  | m, arg :: rest =>
    match parseArgIntoFlags arg with
    | Except.error e => Except.error e
    | Except.ok fs => accumCmdGo cmd (insertCmd cmd m fs) rest

/-- The source's `processCommandOptions` up to the final opaque
`schema.parse` of the options: accumulate command flags, always run the
unknown-flag validation (gated only by `allowUnknownFlags`), then validate
the positional arguments. Returns the accumulated flag map together with
the validated argument values. -/
def processCommandOptions (part : List String) (cmd : Command) (cmdArgs : List String)
    (cfg : Config) : Except PError (FlagMap × List String) :=
  match accumCmdGo cmd [] part with
  | Except.error e => Except.error e
  | Except.ok m =>
    match validateFlags m (cmdFieldsOf cmd) "command" cfg.allowUnknownFlags with
    | [] =>
      match validateArgs cmd.args cmdArgs with
      | Except.error e => Except.error e
      | Except.ok va => Except.ok (m, va)
    | u :: us => Except.error (PError.zodIssues (u :: us))

/-- JS `String.split(sep)` without limit: split on every single occurrence
of the separator (adjacent separators give empty segments). -/
def splitAll (sep : Char) : List Char → List (List Char)
  | [] => [[]]
  | c :: rest =>
    if c == sep then [] :: splitAll sep rest
    else
      match splitAll sep rest with
      | [] => [[c]]
      | seg :: segs => (c :: seg) :: segs

/-- The match test of the command-resolution loop: path equals the command
name, camelCased path equals the name, or the path is literally an alias. -/
def matchesCmd (cmdPath : String) (c : Command) : Bool :=
  cmdPath == c.name || camelCase cmdPath == c.name || c.aliases.contains cmdPath

/-- The shortening loop of `findBestMatchingCommand`, indexed by the length
of the current prefix of the path tokens: the source's `remaining` list
after `m` shortenings is exactly `parts.take (parts.length - m)`, since
`dropLast` removes the final token each time. -/
def findBestLoopK (commands : List (String × Command)) (parts : List String) :
    Nat → Option FoundCommandResult
  | 0 => none
  | k + 1 =>
    match commands.find? (fun e => matchesCmd (String.intercalate " " (parts.take (k + 1))) e.2) with
    | some e =>
      some ⟨some e.2, (splitAll ' ' (String.intercalate " " (parts.take (k + 1))).data).length⟩
    | none => findBestLoopK commands parts k

/-- The source's `findBestMatchingCommand`: longest prefix first, entries
scanned in declaration order, then the (truthy) default-command fallback
with `pathLength` 0, whose command is looked up by declaration key. -/
def findBestMatchingCommand (parts : List String) (commands : List (String × Command))
    (defaultCommand : Option String) : Option FoundCommandResult :=
  match (if 0 < commands.length then findBestLoopK commands parts parts.length else none),
      defaultCommand with
  | some r, _ => some r
  | none, some dk =>
    if dk == "" then none
    else some ⟨(commands.find? (fun e => e.1 == dk)).map Prod.snd, 0⟩
  | none, none => none

/-- A demo configuration: global schema with one field and no aliases,
no default command, unknown flags not allowed. -/
def cfgDemo : Config :=
  { globalOptions := some { fields := ["verbose"], aliases := [] }
    defaultCommand := none
    allowUnknownFlags := false }

/-- The same configuration with a (truthy) default command declared. -/
def cfgDefault : Config :=
  { globalOptions := some { fields := ["verbose"], aliases := [] }
    defaultCommand := some "build"
    allowUnknownFlags := false }

/-- A demo command with no options and no argument schema. -/
def cmdDemo : Command :=
  { name := "build", aliases := [], options := none, args := ArgsSpec.noSpec }

/-- A demo command named user. -/
def userCmd : Command :=
  { name := "user", aliases := [], options := none, args := ArgsSpec.noSpec }

/-- A demo command whose name is the two-word path user add. -/
def userAddCmd : Command :=
  { name := "user add", aliases := [], options := none, args := ArgsSpec.noSpec }

/-- A demo command table declaring user before user add. -/
def demoCommands : List (String × Command) := [("user", userCmd), ("user add", userAddCmd)]

/-- Taking while a predicate holds skips over a block that satisfies it. -/
theorem takeWhile_append_of_all {p : Char → Bool} (ks : List Char) (l : List Char)
    (h : ∀ c ∈ ks, p c = true) : (ks ++ l).takeWhile p = ks ++ l.takeWhile p := by
  induction ks with
  | nil => rfl
  | cons c cs ih =>
    have hc : p c = true := h c (List.mem_cons_self c cs)
    simp only [List.cons_append, List.takeWhile_cons, hc, if_true]
    rw [ih (fun x hx => h x (List.mem_cons_of_mem c hx))]

/-- Dropping while a predicate holds consumes a block that satisfies it. -/
theorem dropWhile_append_of_all {p : Char → Bool} (ks : List Char) (l : List Char)
    (h : ∀ c ∈ ks, p c = true) : (ks ++ l).dropWhile p = l.dropWhile p := by
  induction ks with
  | nil => rfl
  | cons c cs ih =>
    have hc : p c = true := h c (List.mem_cons_self c cs)
    simp only [List.cons_append, List.dropWhile_cons, hc, if_true]
    exact ih (fun x hx => h x (List.mem_cons_of_mem c hx))

/-- On a remainder of the form key, equals sign, payload — with a nonempty
key free of equals signs — the limited split returns the key and the
payload up to the next equals sign. -/
theorem jsSplit2_key_payload (ks vs : List Char) (h2 : ∀ c ∈ ks, c ≠ '=') :
    jsSplit2 '=' (ks ++ '=' :: vs) = (ks, some (vs.takeWhile (fun c => !(c == '=')))) := by
  have hall : ∀ c ∈ ks, (!(c == '=')) = true := by
    intro c hc
    simpa using h2 c hc
  unfold jsSplit2
  rw [dropWhile_append_of_all ks ('=' :: vs) hall, takeWhile_append_of_all ks ('=' :: vs) hall]
  simp [List.dropWhile_cons, List.takeWhile_cons]

/-- C4 counterexample: for the long flag token with key k and payload
containing a further equals sign, the produced value is only the text up
to that second equals sign, not the entire right side. -/
theorem parseLongFlag_value_truncated_cex :
    parseArgIntoFlags "--k=a=b" = Except.ok [⟨"k", FlagValue.str "a"⟩] ∧
    parseArgIntoFlags "--k=a=b" ≠ Except.ok [⟨"k", FlagValue.str "a=b"⟩] :=
  ⟨by decide, by decide⟩

/-- C4 (amended): tokenizing a long flag whose remainder is a nonempty,
equals-free key followed by an equals sign and a payload yields exactly one
FlagToken whose key is the text left of the first equals sign and whose
value is the payload truncated at the next equals sign (the JS limit-2
split keeps only the text between the first and second equals signs). -/
theorem parseLongFlag_value_between_eqs (arg : String) (ks vs : List Char)
    (hdata : arg.data = '-' :: '-' :: (ks ++ '=' :: vs))
    (h1 : ks ≠ [])
    (h2 : ∀ c ∈ ks, c ≠ '=')
    (h3 : isNegated (ks ++ '=' :: vs) = false) :
    parseArgIntoFlags arg =
      Except.ok [⟨String.mk ks, FlagValue.str (String.mk (vs.takeWhile (fun c => !(c == '='))))⟩] := by
  unfold parseArgIntoFlags
  rw [hdata]
  show parseLong (ks ++ '=' :: vs) = _
  unfold parseLong
  rw [h3, if_neg (by simp), jsSplit2_key_payload ks vs h2]
  cases ks with
  | nil => exact absurd rfl h1
  | cons c cs => rfl

/-- C4 witness: the amended statement evaluated on a concrete token. -/
theorem parseLongFlag_value_between_eqs_app :
    parseArgIntoFlags "--port=a=b" = Except.ok [⟨"port", FlagValue.str "a"⟩] := by
  have h := parseLongFlag_value_between_eqs "--port=a=b" "port".data "a=b".data
    (by decide) (by decide) (by decide) (by decide)
  exact h

/-- C5 counterexample: a negated long flag with a trailing equals payload
keeps the payload inside the key instead of ignoring it. -/
theorem parseNoFlag_payload_in_key_cex :
    parseArgIntoFlags "--no-k=v" = Except.ok [⟨"k=v", FlagValue.bool false⟩] ∧
    parseArgIntoFlags "--no-k=v" ≠ Except.ok [⟨"k", FlagValue.bool false⟩] :=
  ⟨by decide, by decide⟩

/-- C5 (amended): for every long flag whose stripped remainder starts with
the negation marker, tokenizing yields one FlagToken with value false whose
key is the entire remainder after the marker — any equals payload is kept
inside the key, not stripped. -/
theorem parseNoFlag_keeps_payload (r : String) :
    parseArgIntoFlags ("--no-" ++ r) = Except.ok [⟨r, FlagValue.bool false⟩] := by
  obtain ⟨cs⟩ := r
  rfl

/-- C8: a long flag token whose key part is empty — the remainder after the
double dash is empty or starts with an equals sign — makes tokenization
fail immediately with the malformed-flag error, producing no FlagToken. -/
theorem parseLongFlag_empty_key_error (arg : String) (rest : List Char)
    (hdata : arg.data = '-' :: '-' :: rest)
    (h : rest = [] ∨ ∃ t, rest = '=' :: t) :
    parseArgIntoFlags arg = Except.error PError.malformedFlag := by
  unfold parseArgIntoFlags
  rw [hdata]
  rcases h with h0 | ⟨t, ht⟩
  · rw [h0]
    rfl
  · rw [ht]
    rfl

/-- C8 witness: the two concrete malformed tokens from the claim. -/
theorem parseLongFlag_empty_key_error_app :
    parseArgIntoFlags "--=value" = Except.error PError.malformedFlag ∧
    parseArgIntoFlags "--" = Except.error PError.malformedFlag :=
  ⟨parseLongFlag_empty_key_error "--=value" ('=' :: "value".data) (by decide)
      (Or.inr ⟨"value".data, rfl⟩),
    parseLongFlag_empty_key_error "--" [] (by decide) (Or.inl rfl)⟩

/-- Shifting the boundary-scan loop: with the recorded total and the running
index both raised by one, the result is the old result plus one. -/
theorem fgoeGo_shift (cfg : Config) (rest : List String) : ∀ n i,
    fgoeGo cfg (n + 1) rest (i + 1) = (fgoeGo cfg n rest i).map (fun x => x + 1) := by
  induction rest with
  | nil => intro n i; rfl
  | cons a t ih =>
    intro n i
    by_cases hd : startsWithDash a
    · cases hp : parseArgIntoFlags a with
      | error e => simp [fgoeGo, hd, hp, Except.map]
      | ok fs =>
        by_cases hg : fs.all (flagIsGlobal cfg)
        · simp [fgoeGo, hd, hp, hg, ih]
        · simp [fgoeGo, hd, hp, hg, Except.map]
    · simp [fgoeGo, hd, Except.map]

/-- C9: the lone-dash token parses to the empty list of flags, and the
boundary scan accepts it into the global region vacuously — scanning a dash
followed by any remainder behaves exactly like scanning the remainder, with
every returned index shifted past the dash. -/
theorem dashToken_vacuouslyGlobal (rest : List String) (cfg : Config) :
    parseArgIntoFlags "-" = Except.ok [] ∧
    findGlobalOptionsEnd ("-" :: rest) cfg =
      (findGlobalOptionsEnd rest cfg).map (fun i => i + 1) := by
  refine ⟨rfl, ?_⟩
  show fgoeGo cfg (rest.length + 1) ("-" :: rest) 0 = _
  have h0 : fgoeGo cfg (rest.length + 1) ("-" :: rest) 0 =
      fgoeGo cfg (rest.length + 1) rest 1 := rfl
  rw [h0]
  exact fgoeGo_shift cfg rest rest.length 0

/-- C1: evaluation at the failing input — the first token is a flag that is
not all-global, so the claim demands boundary index 0, but the loop's break
statement falls through to returning the full argv length 2. -/
theorem findGlobalOptionsEnd_break_eval :
    findGlobalOptionsEnd ["--x", "serve"] cfgDemo = Except.ok 2 ∧
    findGlobalOptionsEnd ["--x", "serve"] cfgDemo ≠ Except.ok 0 :=
  ⟨by decide, by decide⟩

/-- C6: with unknown flags not allowed, flag validation reports the keys
that are schema fields neither directly nor after camelCase normalization
as at most one aggregated issue: no issue when there is none, exactly one
issue carrying the full list otherwise, and every offending key of the map
is listed in that one issue (the check never stops early). -/
theorem validateFlags_aggregates (flags : FlagMap) (fields : List String) (ctx : String) :
    (validateFlags flags fields ctx false).length ≤ 1 ∧
    (unknownKeysOf flags fields = [] → validateFlags flags fields ctx false = []) ∧
    (∀ u us, unknownKeysOf flags fields = u :: us →
      validateFlags flags fields ctx false = [mkUnknownIssue ctx (u :: us)]) ∧
    (∀ kk, kk ∈ flags.map Prod.fst →
      fields.contains kk = false → fields.contains (camelCase kk) = false →
      ∃ iss ∈ validateFlags flags fields ctx false, kk ∈ iss.keys) := by
  refine ⟨?_, ?_, ?_, ?_⟩
  · unfold validateFlags
    cases h : unknownKeysOf flags fields with
    | nil => simp
    | cons u us => simp
  · intro h
    unfold validateFlags
    rw [h]
    rfl
  · intro u us h
    unfold validateFlags
    rw [h]
    rfl
  · intro kk hmem hc1 hc2
    have hk : kk ∈ unknownKeysOf flags fields := by
      unfold unknownKeysOf
      rw [List.mem_filter]
      have hn1 : kk ∉ fields := by simpa using hc1
      have hn2 : camelCase kk ∉ fields := by simpa using hc2
      refine ⟨hmem, ?_⟩
      simp [hn1, hn2]
    unfold validateFlags
    cases h : unknownKeysOf flags fields with
    | nil => rw [h] at hk; cases hk
    | cons u us =>
      rw [h] at hk
      exact ⟨mkUnknownIssue ctx (u :: us), by simp, hk⟩

/-- C6 witness: two unknown command flags produce one aggregated issue
listing both keys, exactly the flag map accumulated from the command-flag
region of the claim's example argv. -/
theorem validateFlags_aggregates_app :
    validateFlags [("foo", FlagValue.bool true), ("bar", FlagValue.bool true)] ["baz"]
        "command" false =
      [mkUnknownIssue "command" ["foo", "bar"]] :=
  (validateFlags_aggregates [("foo", FlagValue.bool true), ("bar", FlagValue.bool true)]
      ["baz"] "command").2.2.1 "foo" ["bar"] (by decide)

/-- Tuple validation only ever reads tokens at positions below the running
index plus the number of remaining schemas, so truncating there changes
nothing. -/
theorem tupleGo_take (xs : List FieldSchema) : ∀ (i : Nat) (ts : List String),
    tupleGo i xs (ts.take (i + xs.length)) = tupleGo i xs ts := by
  induction xs with
  | nil => intro i ts; rfl
  | cons x xs ih =>
    intro i ts
    unfold tupleGo
    have hlt : i < i + (x :: xs).length := by simp
    rw [List.getElem?_take_of_lt hlt]
    have harith : i + (x :: xs).length = (i + 1) + xs.length := by
      simp [List.length_cons]
      omega
    rw [harith, ih (i + 1) ts]

/-- With no tokens at all, every tuple position receives the missing
marker, in schema order. -/
theorem tupleGo_nil_tokens (xs : List FieldSchema) : ∀ i : Nat,
    tupleGo i xs [] = xs.mapM (fun x => x none) := by
  induction xs with
  | nil => intro i; rfl
  | cons x xs ih =>
    intro i
    unfold tupleGo
    rw [List.getElem?_nil, ih (i + 1), List.mapM_cons]
    cases x none with
    | error e => rfl
    | ok v =>
      cases xs.mapM (fun x => x none) with
      | error e => rfl
      | ok rest => rfl

/-- C7: argument validation dispatches on the schema variant — the array
variant applies the item schema to every token; the tuple variant applies
schema i to token i (missing tokens passed as none) and never reads beyond
the declared tuple length; the single variant reads only the first token,
discarding the rest; the none variant yields the empty result for any
token list. -/
theorem validateArgs_dispatch (s : FieldSchema) (ss : List FieldSchema) (ts : List String) :
    (validateArgs (ArgsSpec.arr s) ts = ts.mapM (fun t => s (some t))) ∧
    (validateArgs (ArgsSpec.tuple ss) ts = tupleGo 0 ss ts) ∧
    (validateArgs (ArgsSpec.tuple ss) ts = validateArgs (ArgsSpec.tuple ss) (ts.take ss.length)) ∧
    (validateArgs (ArgsSpec.tuple ss) [] = ss.mapM (fun x => x none)) ∧
    (validateArgs (ArgsSpec.single s) ts = validateArgs (ArgsSpec.single s) (ts.take 1)) ∧
    (validateArgs ArgsSpec.noSpec ts = Except.ok []) := by
  refine ⟨rfl, rfl, ?_, ?_, ?_, rfl⟩
  · show tupleGo 0 ss ts = tupleGo 0 ss (ts.take ss.length)
    have h := tupleGo_take ss 0 ts
    rw [Nat.zero_add] at h
    exact h.symm
  · exact tupleGo_nil_tokens ss 0
  · show (match s ts[0]? with
      | Except.error e => Except.error e
      | Except.ok v => Except.ok [v]) =
      (match s (ts.take 1)[0]? with
      | Except.error e => Except.error e
      | Except.ok v => Except.ok [v])
    cases ts with
    | nil => rfl
    | cons a t => simp

/-- C2: a (truthy) declared default command skips the global-region
unknown-flag validation entirely — global processing is then exactly the
accumulation phase; with no default command declared the accumulated map is
validated and any unknown-key issues abort processing; and command-region
processing (whose unknown-flag check always runs, gated only by the
allow-unknown setting) is unchanged by any default-command configuration. -/
theorem defaultCommand_gates_globalCheck (part : List String) (cfg : Config)
    (cmd : Command) (cmdArgs : List String) :
    (∀ d, cfg.defaultCommand = some d → d ≠ "" →
      processGlobalOptions part cfg = accumGlobalFlags part cfg) ∧
    (cfg.defaultCommand = none →
      ∀ m, accumGlobalFlags part cfg = Except.ok m →
        processGlobalOptions part cfg =
          (match validateFlags m (globalFieldsOf cfg) "global" cfg.allowUnknownFlags with
            | [] => Except.ok m
            | u :: us => Except.error (PError.zodIssues (u :: us)))) ∧
    (∀ d, processCommandOptions part cmd cmdArgs { cfg with defaultCommand := d } =
      processCommandOptions part cmd cmdArgs cfg) ∧
    (∀ m u us, accumCmdGo cmd [] part = Except.ok m →
      validateFlags m (cmdFieldsOf cmd) "command" cfg.allowUnknownFlags = u :: us →
      processCommandOptions part cmd cmdArgs cfg = Except.error (PError.zodIssues (u :: us))) := by
  refine ⟨?_, ?_, ?_, ?_⟩
  · intro d hd hne
    have htruthy : hasTruthyDefault cfg = true := by
      unfold hasTruthyDefault
      rw [hd]
      simpa using hne
    unfold processGlobalOptions
    cases hacc : accumGlobalFlags part cfg with
    | error e => rfl
    | ok m => simp [htruthy]
  · intro hnone m hacc
    have hfalsy : hasTruthyDefault cfg = false := by
      unfold hasTruthyDefault
      rw [hnone]
    unfold processGlobalOptions
    rw [hacc, hfalsy]
    rfl
  · intro d
    rfl
  · intro m u us hacc hval
    unfold processCommandOptions
    rw [hacc]
    show (match validateFlags m (cmdFieldsOf cmd) "command" cfg.allowUnknownFlags with
      | [] =>
        match validateArgs cmd.args cmdArgs with
        | Except.error e => Except.error e
        | Except.ok va => Except.ok (m, va)
      | u :: us => Except.error (PError.zodIssues (u :: us))) =
      Except.error (PError.zodIssues (u :: us))
    rw [hval]

/-- C2 witness: with a default command the unknown-looking global token
triggers no validation; without one the validation runs on the accumulated
map (which here is empty, since the unknown flag was never inserted). -/
theorem defaultCommand_gates_globalCheck_app :
    processGlobalOptions ["--x"] cfgDefault = accumGlobalFlags ["--x"] cfgDefault ∧
    processGlobalOptions ["--x"] cfgDemo = Except.ok [] :=
  ⟨(defaultCommand_gates_globalCheck ["--x"] cfgDefault cmdDemo []).1 "build" rfl (by decide),
    (defaultCommand_gates_globalCheck ["--x"] cfgDemo cmdDemo []).2.1 rfl [] rfl⟩

/-- Membership in a map after a set operation: the element is the new pair
or was already present. -/
theorem mem_mapSet (m : FlagMap) (k : String) (v : FlagValue) :
    ∀ p ∈ mapSet m k v, p = (k, v) ∨ p ∈ m := by
  intro p hp
  unfold mapSet at hp
  by_cases h : m.any (fun q => q.1 == k)
  · rw [if_pos h] at hp
    obtain ⟨q, hq, hmap⟩ := List.mem_map.mp hp
    by_cases hqk : q.1 == k
    · left
      rw [if_pos hqk] at hmap
      exact hmap.symm
    · right
      rw [if_neg hqk] at hmap
      rw [← hmap]
      exact hq
  · rw [if_neg h] at hp
    rcases List.mem_append.mp hp with h1 | h2
    · right
      exact h1
    · left
      simpa using h2

/-- The global-insertion step only ever adds keys recognized as global. -/
theorem insertGlobal_keys (cfg : Config) (fs : List ParsedFlag) : ∀ m : FlagMap,
    (∀ p ∈ m, isGlobalFlag p.1 cfg.globalOptions = true) →
    ∀ p ∈ insertGlobal cfg m fs, isGlobalFlag p.1 cfg.globalOptions = true := by
  induction fs with
  | nil => intro m hm; exact hm
  | cons f fs ih =>
    intro m hm
    show ∀ p ∈ insertGlobal cfg _ fs, _
    apply ih
    by_cases hg : isGlobalFlag (resolveAlias f.key (globalAliasesOf cfg)) cfg.globalOptions
    · simp only [hg, if_true]
      intro p hp
      rcases mem_mapSet m _ f.value p hp with h1 | h2
      · rw [h1]
        exact hg
      · exact hm p h2
    · simp only [hg, Bool.false_eq_true, if_false]
      exact hm

/-- The accumulation loop preserves the all-global key invariant. -/
theorem accumGo_keys (cfg : Config) (part : List String) : ∀ m m' : FlagMap,
    (∀ p ∈ m, isGlobalFlag p.1 cfg.globalOptions = true) →
    accumGo cfg m part = Except.ok m' →
    ∀ p ∈ m', isGlobalFlag p.1 cfg.globalOptions = true := by
  induction part with
  | nil =>
    intro m m' hm hacc
    cases hacc
    exact hm
  | cons arg rest ih =>
    intro m m' hm hacc
    unfold accumGo at hacc
    cases hp : parseArgIntoFlags arg with
    | error e => rw [hp] at hacc; cases hacc
    | ok fs =>
      rw [hp] at hacc
      exact ih (insertGlobal cfg m fs) m' (insertGlobal_keys cfg fs m hm) hacc

/-- Every key of an issue produced by flag validation is a key of the
validated map. -/
theorem validateFlags_keys_sub (flags : FlagMap) (fields : List String) (ctx : String)
    (allow : Bool) :
    ∀ iss ∈ validateFlags flags fields ctx allow, ∀ kk ∈ iss.keys, kk ∈ flags.map Prod.fst := by
  unfold validateFlags
  by_cases h : allow
  · simp [h]
  · rw [if_neg h]
    cases hu : unknownKeysOf flags fields with
    | nil => simp
    | cons u us =>
      intro iss hiss kk hkk
      have hiss' : iss = mkUnknownIssue ctx (u :: us) := by simpa using hiss
      rw [hiss'] at hkk
      have : kk ∈ unknownKeysOf flags fields := by
        rw [hu]
        exact hkk
      unfold unknownKeysOf at this
      exact (List.mem_filter.mp this).1

/-- C10: a parsed flag whose alias-resolved key is not recognized as global
is silently skipped during global accumulation — it never appears as a key
of the accumulated map fed to the schema parse, and it is never listed in
any unknown-flag issue raised by global processing. -/
theorem accumGlobalFlags_skips_nonglobal (part : List String) (cfg : Config)
    (m : FlagMap) (k : String)
    (hacc : accumGlobalFlags part cfg = Except.ok m)
    (hng : isGlobalFlag k cfg.globalOptions = false) :
    (m.map Prod.fst).contains k = false ∧
    (∀ iss, processGlobalOptions part cfg = Except.error (PError.zodIssues iss) →
      ∀ i ∈ iss, k ∉ i.keys) := by
  have hkeys : ∀ p ∈ m, isGlobalFlag p.1 cfg.globalOptions = true :=
    accumGo_keys cfg part [] m (by intro p hp; cases hp) hacc
  have hnotmem : k ∉ m.map Prod.fst := by
    intro hk
    obtain ⟨p, hp, hpk⟩ := List.mem_map.mp hk
    have := hkeys p hp
    rw [hpk, hng] at this
    cases this
  refine ⟨by simpa using hnotmem, ?_⟩
  intro iss herr i hi hk
  unfold processGlobalOptions at herr
  rw [hacc] at herr
  have herr2 : (if hasTruthyDefault cfg = true then Except.ok m
      else
        match validateFlags m (globalFieldsOf cfg) "global" cfg.allowUnknownFlags with
        | [] => Except.ok m
        | u :: us => Except.error (PError.zodIssues (u :: us))) =
      Except.error (PError.zodIssues iss) := herr
  by_cases hd : hasTruthyDefault cfg
  · rw [if_pos hd] at herr2
    cases herr2
  · rw [if_neg hd] at herr2
    cases hv : validateFlags m (globalFieldsOf cfg) "global" cfg.allowUnknownFlags with
    | nil => rw [hv] at herr2; cases herr2
    | cons u us =>
      rw [hv] at herr2
      have hiss : iss = u :: us := by
        have h1 := congrArg (fun x => match x with
          | Except.error (PError.zodIssues l) => l
          | _ => []) herr2
        simpa using h1.symm
      apply hnotmem
      apply validateFlags_keys_sub m (globalFieldsOf cfg) "global" cfg.allowUnknownFlags i
      · rw [hv, ← hiss]
        exact hi
      · exact hk

/-- C10 witness: the unknown-looking token never makes it into the map
accumulated from a global slice that also carries a real global flag. -/
theorem accumGlobalFlags_skips_nonglobal_app :
    (([("verbose", FlagValue.bool true)] : FlagMap).map Prod.fst).contains "x" = false :=
  (accumGlobalFlags_skips_nonglobal ["--verbose", "--x"] cfgDemo
    [("verbose", FlagValue.bool true)] "x" (by decide) (by decide)).1

/-- The shortening loop, started at any length at or above a matching
prefix length with no match strictly in between, stops at that matching
prefix and returns the first matching table entry. -/
theorem findBestLoopK_reaches (commands : List (String × Command)) (parts : List String)
    (k : Nat) (e : String × Command)
    (hfind : commands.find? (fun x => matchesCmd (String.intercalate " " (parts.take k)) x.2) =
      some e)
    (hk0 : 0 < k) : ∀ n, k ≤ n →
    (∀ j, k < j → j ≤ n →
      commands.find? (fun x => matchesCmd (String.intercalate " " (parts.take j)) x.2) = none) →
    findBestLoopK commands parts n =
      some ⟨some e.2, (splitAll ' ' (String.intercalate " " (parts.take k)).data).length⟩ := by
  intro n
  induction n with
  | zero => intro hkn _; omega
  | succ w ih =>
    intro hkn habove
    by_cases hke : k = w + 1
    · subst hke
      unfold findBestLoopK
      rw [hfind]
    · have hnone := habove (w + 1) (by omega) (Nat.le_refl _)
      unfold findBestLoopK
      rw [hnone]
      exact ih (by omega) (fun j hj1 hj2 => habove j hj1 (by omega))

/-- C3: command resolution returns the match at the greatest prefix length
of the path tokens — no prefix strictly longer than k matches any entry,
the space-joined k-prefix is matched by some entry, and the first matching
entry in declaration order is returned, with the path length counted as the
space-separated words of the joined candidate. -/
theorem findBestMatchingCommand_longest_earliest (parts : List String)
    (commands : List (String × Command)) (k : Nat) (e : String × Command)
    (dflt : Option String)
    (hk0 : 0 < k) (hkn : k ≤ parts.length)
    (hfind : commands.find? (fun x => matchesCmd (String.intercalate " " (parts.take k)) x.2) =
      some e)
    (habove : ∀ j, k < j → j ≤ parts.length →
      commands.find? (fun x => matchesCmd (String.intercalate " " (parts.take j)) x.2) = none) :
    findBestMatchingCommand parts commands dflt =
      some ⟨some e.2, (splitAll ' ' (String.intercalate " " (parts.take k)).data).length⟩ := by
  have hne : 0 < commands.length := by
    cases commands with
    | nil => simp [List.find?] at hfind
    | cons a t => simp
  have hloop := findBestLoopK_reaches commands parts k e hfind hk0 parts.length hkn habove
  unfold findBestMatchingCommand
  rw [if_pos hne, hloop]

/-- C3 witness: with commands user and user add declared in that order, the
path tokens resolve to user add at path length 2, leaving the third token
as a positional argument. -/
theorem findBestMatchingCommand_longest_earliest_app :
    findBestMatchingCommand ["user", "add", "bob"] demoCommands none =
      some ⟨some userAddCmd, 2⟩ ∧
    List.drop 2 ["user", "add", "bob"] = ["bob"] := by
  constructor
  · exact findBestMatchingCommand_longest_earliest ["user", "add", "bob"] demoCommands 2
      ("user add", userAddCmd) none (by decide) (by decide) rfl
      (by
        intro j h1 h2
        have h2x : j ≤ 3 := by simpa using h2
        have hj : j = 3 := by omega
        subst hj
        rfl)
  · rfl
